import Mathlib

/-!
A shallow embedding of `src/lib/Arguments.ts` (the `Arguments` class of the
deno-arguments package): alias normalization of argument expectations, raw-flag
resolution with default fallback and convertors, help-text rendering, version
normalization, and the exception-family predicate.

JavaScript values are modelled explicitly: the raw flag source maps flag names
to `RawValue` (string, boolean or number; absence is modelled by the name not
being bound), while convertor inputs/outputs and defaults live in `Value`,
which additionally has the JavaScript `null` used by the source as the absent
marker.  `undefined` is modelled as `Option.none` where a slot in the source
can hold it (the `default`, `description` and `convertor` declaration fields,
and the results of lookups).
-/

/-- ASCII whitespace, modelling the JavaScript regex class `\s` and the
whitespace set of `String.prototype.trim` (exotic Unicode space characters
are not modelled; the source only ever meets ASCII here). -/
def jsWs (c : Char) : Bool :=
  c == ' ' || c == '\t' || c == '\n' || c == '\r' || c == '\x0b' || c == '\x0c'

/-- Drop leading whitespace characters. -/
def dropWs : List Char → List Char
  | [] => []
  | c :: cs => if jsWs c then dropWs cs else c :: cs

/-- JavaScript `String.prototype.trim` on the underlying character list:
drop leading whitespace, then drop trailing whitespace. -/
def trimChars (l : List Char) : List Char :=
  (dropWs ((dropWs l).reverse)).reverse

/-- JavaScript `s.trim()`. -/
def jsTrim (s : String) : String :=
  String.mk (trimChars s.data)

/-- The splitter state machine for `s.split(/\s+|\s*,\s*/g)` (from
`Arguments.#createExpectations`).  State `some acc` accumulates the current
piece (reversed); state `none` means the scanner is inside a separator match
(a maximal whitespace run, or the trailing `\s*` of a comma match).  A comma
met while in separator state starts a new match, which closes an empty piece,
exactly as the JavaScript regex engine does (alternation is ordered, so a
whitespace run before a comma is its own match). -/
def splitRun : Option (List Char) → List Char → List String
  | some acc, [] => [String.mk acc.reverse]
  | none, [] => [""]
  | some acc, c :: cs =>
    if jsWs c then String.mk acc.reverse :: splitRun none cs
    else if c = ',' then String.mk acc.reverse :: splitRun none cs
    else splitRun (some (c :: acc)) cs
  | none, c :: cs =>
    if jsWs c then splitRun none cs
    else if c = ',' then "" :: splitRun none cs
    else splitRun (some [c]) cs

/-- JavaScript `n.trim().split(/\s+|\s*,\s*/g)` from
`Arguments.#createExpectations`. -/
def jsSplitNames (s : String) : List String :=
  splitRun (some []) (trimChars s.data)

/-- A defined value of the raw flag source (output of the external `parse`):
a string, boolean or number.  Absence (`undefined`) is modelled by the flag
name not being bound in the map. -/
inductive RawValue where
  | str (s : String)
  | bool (b : Bool)
  | num (n : Int)
deriving DecidableEq

/-- JavaScript truthiness of a raw value (used by `!!` in `shouldHelp`):
the empty string, `false` and `0` are falsy. -/
def RawValue.truthy : RawValue → Bool
  | .str s => s != ""
  | .bool b => b
  | .num n => n != 0

/-- A JavaScript value as seen by convertors and defaults: a raw value or
`null`.  The source uses `null` as its absent marker for defaults. -/
inductive Value where
  | raw (v : RawValue)
  | null
deriving DecidableEq

/-- Modelled from the spec: the exception family of this system
(`Exception.ts`, `HelpException.ts` and `ValueException.ts` are not under
`src/`).  Per spec §7 the family has exactly the help-requested signal and
the value-error signal, both extending one base `Exception`; a plain
JavaScript `Error` (as thrown by `get` on an undeclared name) is outside the
family. -/
inductive ErrorValue where
  | generic (message : String)
  | help (payload : String)
  | value (message : String)
deriving DecidableEq

/-- `Arguments.isArgumentException`: `error instanceof Exception`.  Only the
two members of the exception family are instances of the base `Exception`
class; a plain `Error` is not. -/
def isArgumentException : ErrorValue → Bool
  | .generic _ => false
  | .help _ => true
  | .value _ => true

/-- `Arguments.createValueException`. -/
def createValueException (message : String) : ErrorValue :=
  ErrorValue.value message

/-- The `name` field of an expectation declaration: a single string or an
array of alias strings. -/
inductive NameDecl where
  | str (s : String)
  | arr (l : List String)

/-- The caller-supplied expectation declaration (`ExpectationType` in the
source).  `none` in `default`, `description` and `convertor` models
`undefined` (the field not supplied); an explicit JavaScript `null` default
is `some Value.null`. -/
structure ExpectationType where
  name : NameDecl
  default : Option Value := none
  description : Option String := none
  convertor : Option (Value → Value) := none

/-- The canonical expectation stored in `#expectations`: `names`,
`description` (`none` models the stored `null`), `default` (`Value.null` is
the stored absent marker) and a total convertor. -/
structure Expectation where
  names : List String
  description : Option String
  default : Value
  convertor : Value → Value

/-- Alias normalization from `Arguments.#createExpectations`: a string name
is trimmed and split on `/\s+|\s*,\s*/g`; an array name has each element
trimmed independently. -/
def normalizeName : NameDecl → List String
  | .str s => jsSplitNames s
  | .arr l => l.map jsTrim

/-- Default normalization from `Arguments.#createExpectations`:
`ex.default ?? null`, so both `undefined` and an explicit `null` collapse to
the stored absent marker `null`; every other value is kept. -/
def normalizeDefault (d : Option Value) : Value :=
  d.getD Value.null

/-- Description normalization from `Arguments.#createExpectations`:
`if (des) return des.trim(); return null;` — an `undefined` or empty (falsy)
description becomes `null`, otherwise it is trimmed. -/
def normalizeDescription (d : Option String) : Option String :=
  match d with
  | some des => if des = "" then none else some (jsTrim des)
  | none => none

/-- One step of `Arguments.#createExpectations`. -/
def createExpectation (ex : ExpectationType) : Expectation :=
  { names := normalizeName ex.name
  , description := normalizeDescription ex.description
  , default := normalizeDefault ex.default
  , convertor := ex.convertor.getD (fun v => v) }

/-- `Arguments.#createExpectations`. -/
def createExpectations (decls : List ExpectationType) : List Expectation :=
  decls.map createExpectation

/-- The `Arguments` instance state: the canonical registry, the raw flag map
(produced externally by `parse(Deno.args)` and supplied at construction), and
the mutable session metadata `#desciprion`/`#version` (`none` models the
initial `null`). -/
structure Arguments where
  expectations : List Expectation
  raw : List (String × RawValue)
  description : Option String
  version : Option String

/-- The constructor `new Arguments(...expectations)`: normalizes the
declarations and stores the externally parsed raw flag map. -/
def Arguments.make (decls : List ExpectationType) (rawArgs : List (String × RawValue)) : Arguments :=
  { expectations := createExpectations decls
  , raw := rawArgs
  , description := none
  , version := none }

/-- JavaScript `this.#raw[name]`: `some` when the property is defined. -/
def lookupRaw (raw : List (String × RawValue)) (name : String) : Option RawValue :=
  match raw.find? (fun p => p.1 == name) with
  | some p => some p.2
  | none => none

/-- `Arguments.getRaw(...names)`: scan the candidates in order and return the
first whose raw value is not `undefined`; `none` models the `undefined`
returned when no candidate is present. -/
def Arguments.getRaw (A : Arguments) : List String → Option RawValue
  | [] => none
  | n :: rest =>
    match lookupRaw A.raw n with
    | some v => some v
    | none => A.getRaw rest

/-- The truthiness test `ex.names.find(n => n === name)` used by `get`: the
JavaScript `Array.prototype.find` returns the matched string itself, which is
then coerced to a boolean, so a matched empty-string alias counts as no
match. -/
def nameMatches (names : List String) (name : String) : Bool :=
  match names.find? (fun n => n == name) with
  | some s => s != ""
  | none => false

/-- `Arguments.get(name)`: find the first expectation one of whose aliases is
`name` (throwing a plain `Error` if none), resolve the raw value over all of
its aliases, coalesce `undefined` to the stored default with `??`, and apply
the convertor. -/
def Arguments.get (A : Arguments) (name : String) : Except ErrorValue Value :=
  match A.expectations.find? (fun ex => nameMatches ex.names name) with
  | none => Except.error (ErrorValue.generic ("Argument \"" ++ name ++ "\" is not found."))
  | some ex =>
    Except.ok (ex.convertor (match A.getRaw ex.names with
      | some v => Value.raw v
      | none => ex.default))

/-- `Arguments.shouldHelp()`: `!!this.getRaw('help')`. -/
def Arguments.shouldHelp (A : Arguments) : Bool :=
  match A.getRaw ["help"] with
  | some v => v.truthy
  | none => false

/-- `Arguments.setDescription(description)`. -/
def Arguments.setDescription (A : Arguments) (d : String) : Arguments :=
  { A with description := some d }

/-- The state machine implementing the global regex replace
`version.replace(/v([0-9]+(\.[0-9]+)*)/g, (_match, p1) => p1)`.
Mode `false` scans plain text: a `v` immediately followed by a digit starts a
match, and the `v` is dropped while the digit run is kept.  Mode `true` is
inside the matched numeric run: digits extend it; a dot followed by a digit
extends it with a further group; anything else ends the match and is rescanned
as plain text (so a later `v`+digit starts a fresh match). -/
def repV : Bool → List Char → List Char
  | _, [] => []
  | _, [c] => [c]
  | false, c :: d :: cs =>
    if c = 'v' ∧ d.isDigit = true then d :: repV true cs
    else c :: repV false (d :: cs)
  | true, c :: d :: cs =>
    if c = '.' ∧ d.isDigit = true then '.' :: d :: repV true cs
    else if c = 'v' ∧ d.isDigit = true then d :: repV true cs
    else if c.isDigit = true then c :: repV true (d :: cs)
    else c :: repV false (d :: cs)

/-- No position inside the list is a `v` immediately followed by a digit, so
no match of `/v([0-9]+(\.[0-9]+)*)/g` starts inside it. -/
def noVD : List Char → Bool
  | c :: d :: cs => !(c == 'v' && d.isDigit) && noVD (d :: cs)
  | _ => true

/-- A non-empty run of decimal digits (one `[0-9]+` of the version regex). -/
def digitsTok (t : List Char) : Bool :=
  !t.isEmpty && t.all Char.isDigit

/-- The `(\.[0-9]+)*` part of a matched numeric run: each group rendered as a
dot followed by its digits. -/
def joinDots : List (List Char) → List Char
  | [] => []
  | g :: gs => '.' :: (g ++ joinDots gs)

/-- A gap of text that may directly follow a matched numeric run without
extending the match: it does not start with a digit (which the greedy
`[0-9]+` would have consumed), and if it starts with a dot, the character
after that dot inside the gap is not a digit (which `(\.[0-9]+)*` would have
consumed).  A dot at the very end of the gap is harmless, because what
follows the gap is a `v` or the end of the string. -/
def afterRunGap : List Char → Bool
  | [] => true
  | c :: rest =>
    !c.isDigit &&
      (if c = '.' then
        match rest with
        | e :: _ => !e.isDigit
        | [] => true
      else true)

/-- The text of a version string after its leading gap: a sequence of
`v`-prefixed numeric runs (first digit group, further dot groups), each
followed by its trailing gap. -/
def joinRuns : List (List Char × List (List Char) × List Char) → List Char
  | [] => []
  | (f, gs, g) :: rest => 'v' :: (f ++ (joinDots gs ++ (g ++ joinRuns rest)))

/-- The same sequence with every run's leading `v` stripped — the intended
output of the global replace for that text. -/
def joinRunsOut : List (List Char × List (List Char) × List Char) → List Char
  | [] => []
  | (f, gs, g) :: rest => f ++ (joinDots gs ++ (g ++ joinRunsOut rest))

/-- `Arguments.setVersion(version)`: store the version with every `v<digits>`
(optionally dot-separated) run replaced by the run without its leading `v`. -/
def Arguments.setVersion (A : Arguments) (v : String) : Arguments :=
  { A with version := some (String.mk (repV false v.data)) }

/-- Modelled from the spec: terminal bold decoration (the helper
`src/lib/helpers/colors.ts` is not under `src/`; per spec §1 color/style
decoration is an external collaborator that wraps text in terminal escapes). -/
def bold (s : String) : String :=
  "\x1b[1m" ++ s ++ "\x1b[22m"

/-- Modelled from the spec: terminal italic decoration (external collaborator,
`src/lib/helpers/colors.ts` is not under `src/`). -/
def italic (s : String) : String :=
  "\x1b[3m" ++ s ++ "\x1b[23m"

/-- Modelled from the spec: terminal gray decoration (external collaborator,
`src/lib/helpers/colors.ts` is not under `src/`). -/
def gray (s : String) : String :=
  "\x1b[90m" ++ s ++ "\x1b[39m"

/-- Modelled from the spec: the generic human-readable value inspector
(`Deno.inspect`, external; per spec §6 its exact rendering is not part of the
core contract beyond producing a readable representation). -/
def inspectValue : Value → String
  | .raw (.str s) => "\"" ++ s ++ "\""
  | .raw (.bool b) => toString b
  | .raw (.num n) => toString n
  | .null => "null"

/-- The indent used by `getHelpMessage` for description and default lines. -/
def helpIndent : String := "        "

/-- The header line of one expectation block in `getHelpMessage`:
two spaces, then every alias rendered as `--` + bold alias, joined by `, `. -/
def expHeader (ex : Expectation) : String :=
  "  " ++ String.intercalate ", " (ex.names.map (fun n => "--" ++ bold n))

/-- The description lines of one expectation block in `getHelpMessage`: if
the stored description is truthy, one indented gray line per
newline-separated description line; nothing otherwise
(`if (ex.description) \x7b ... \x7d`). -/
def descLinesOf (ex : Expectation) : List String :=
  match ex.description with
  | some des =>
    if des = "" then []
    else (des.splitOn "\n").map (fun d => helpIndent ++ gray d)
  | none => []

/-- The default-value line of one expectation block in `getHelpMessage`:
present exactly when the stored default is not `null`
(`if (ex.default !== null) \x7b ... \x7d`). -/
def defaultLineOf (ex : Expectation) : List String :=
  if ex.default = Value.null then []
  else [helpIndent ++ gray "Výchozí hodnota:" ++ " " ++ inspectValue ex.default]

/-- The lines of one expectation block in `getHelpMessage`: the header, then
the description lines (if any), then the default-value line (if any). -/
def expLines (ex : Expectation) : List String :=
  [expHeader ex] ++ descLinesOf ex ++ defaultLineOf ex

/-- One expectation block of `getHelpMessage`: `['', ...lines, ''].join('\n')`. -/
def expBlock (ex : Expectation) : String :=
  String.intercalate "\n" ([""] ++ expLines ex ++ [""])

/-- The `docs` part of `getHelpMessage`: one block per expectation, in
registry order, joined by `'\n'`. -/
def docsOf (exs : List Expectation) : String :=
  String.intercalate "\n" (exs.map expBlock)

/-- The session-description part of the metadata block of `getHelpMessage`:
the stored description when truthy, nothing otherwise
(`if (this.#desciprion) \x7b ... \x7d`). -/
def sessionDescLines (A : Arguments) : List String :=
  match A.description with
  | some s => if s = "" then [] else [s]
  | none => []

/-- The version part of the metadata block of `getHelpMessage`: the gray
italic version line when the stored version is truthy, nothing otherwise
(`if (this.#version) \x7b ... \x7d`). -/
def versionLines (A : Arguments) : List String :=
  match A.version with
  | some s => if s = "" then [] else [gray (italic ("Verze: " ++ s))]
  | none => []

/-- The metadata block of `getHelpMessage`: the session description if truthy,
then the gray italic version line if the stored version is truthy. -/
def metaLines (A : Arguments) : List String :=
  sessionDescLines A ++ versionLines A

/-- `Arguments.getHelpMessage()`:
`[description.join('\r\n'), docs].filter(s => s !== '').join('\n')`. -/
def Arguments.getHelpMessage (A : Arguments) : String :=
  String.intercalate "\n"
    (([String.intercalate "\r\n" (metaLines A), docsOf A.expectations]).filter
      (fun s => s != ""))

/-- `Arguments.triggerHelpException()`: the raised help-requested signal. -/
def Arguments.triggerHelpException (A : Arguments) : ErrorValue :=
  ErrorValue.help A.getHelpMessage

/-- The spec-side description of raw-value resolution for one expectation
(spec §4.2): take the first alias, in alias order, that is present in the raw
flag source; fall back to the stored default (the absent marker when none was
declared).  Stated with `List.findSome?` so the resolution engine's recursive
`getRaw` can be proved to refine it. -/
def specResolve (raw : List (String × RawValue)) (ex : Expectation) : Value :=
  match ex.names.findSome? (fun n => lookupRaw raw n) with
  | some v => Value.raw v
  | none => ex.default

/-- A character that the split regex `/\s+|\s*,\s*/g` can consume: whitespace
or a comma. -/
def sepChar (c : Char) : Bool :=
  jsWs c || c == ','

/-- A plain alias token: non-empty and free of whitespace and commas. -/
def plainTok (t : List Char) : Bool :=
  !t.isEmpty && t.all (fun c => !sepChar c)

/-- A separator in which no whitespace precedes a comma: either a comma
followed by optional whitespace, or a non-empty pure whitespace run. -/
def plainSep (s : List Char) : Bool :=
  match s with
  | [] => false
  | c :: w => (if c = ',' then true else jsWs c) && w.all jsWs

/-- Interleave separator/token segments after a leading token. -/
def joinSegs : List (List Char × List Char) → List Char
  | [] => []
  | (s, t) :: rest => s ++ t ++ joinSegs rest

theorem head?_append_left {α : Type} (xs ys : List α) (h : xs ≠ []) :
    (xs ++ ys).head? = xs.head? := by
  cases xs with
  | nil => exact absurd rfl h
  | cons a l => rfl

theorem head?_mem {α : Type} (l : List α) (a : α) (h : l.head? = some a) : a ∈ l := by
  cases l with
  | nil => simp at h
  | cons b l =>
    simp only [List.head?_cons, Option.some.injEq] at h
    exact h ▸ List.mem_cons_self b l

theorem dropWs_all (l : List Char) (h : ∀ c ∈ l, jsWs c = false) : dropWs l = l := by
  induction l with
  | nil => rfl
  | cons c cs ih =>
    simp only [dropWs, h c (List.mem_cons_self c cs)]
    simp

theorem dropWs_idem (l : List Char) : dropWs (dropWs l) = dropWs l := by
  induction l with
  | nil => rfl
  | cons c cs ih =>
    by_cases h : jsWs c = true
    · simp [dropWs, h, ih]
    · simp [dropWs, h]

theorem dropWs_head_false (l : List Char) (c : Char)
    (h : (dropWs l).head? = some c) : jsWs c = false := by
  induction l with
  | nil => simp [dropWs] at h
  | cons d cs ih =>
    by_cases hd : jsWs d = true
    · exact ih (by simpa [dropWs, hd] using h)
    · have hdf : jsWs d = false := by simpa using hd
      rw [dropWs, hdf] at h
      simp only [Bool.false_eq_true, if_false, List.head?_cons, Option.some.injEq] at h
      exact h ▸ hdf

theorem dropWs_rev_head (l : List Char) (c : Char)
    (h : ((dropWs l).reverse).head? = some c) : (l.reverse).head? = some c := by
  induction l with
  | nil => simp [dropWs] at h
  | cons d cs ih =>
    by_cases hd : jsWs d = true
    · have h' := ih (by simpa [dropWs, hd] using h)
      have hne : cs.reverse ≠ [] := by
        intro hnil
        rw [hnil] at h'
        simp at h'
      simp only [List.reverse_cons]
      rw [head?_append_left cs.reverse [d] hne]
      exact h'
    · simpa [dropWs, hd] using h

theorem dropWs_eq_self (l : List Char)
    (h : ∀ c, l.head? = some c → jsWs c = false) : dropWs l = l := by
  cases l with
  | nil => rfl
  | cons c cs => simp [dropWs, h c rfl]

theorem trimChars_noWs (l : List Char) (h : ∀ c ∈ l, jsWs c = false) :
    trimChars l = l := by
  unfold trimChars
  rw [dropWs_all l h]
  rw [dropWs_all l.reverse (by intro c hc; exact h c (List.mem_reverse.mp hc))]
  exact List.reverse_reverse l

theorem trimChars_idem (l : List Char) : trimChars (trimChars l) = trimChars l := by
  have hrev : (trimChars l).reverse = dropWs ((dropWs l).reverse) := by
    unfold trimChars
    exact List.reverse_reverse _
  have h1 : dropWs ((trimChars l).reverse) = (trimChars l).reverse := by
    rw [hrev, dropWs_idem]
  have h2 : dropWs (trimChars l) = trimChars l := by
    apply dropWs_eq_self
    intro c hc
    unfold trimChars at hc
    have h3 := dropWs_rev_head ((dropWs l).reverse) c hc
    rw [List.reverse_reverse] at h3
    exact dropWs_head_false l c h3
  calc trimChars (trimChars l)
      = (dropWs ((dropWs (trimChars l)).reverse)).reverse := rfl
    _ = (dropWs ((trimChars l).reverse)).reverse := by rw [h2]
    _ = ((trimChars l).reverse).reverse := by rw [h1]
    _ = trimChars l := List.reverse_reverse _

theorem jsTrim_idem (s : String) : jsTrim (jsTrim s) = jsTrim s := by
  unfold jsTrim
  rw [show (String.mk (trimChars s.data)).data = trimChars s.data from rfl]
  rw [trimChars_idem]

theorem jsTrim_noWs (s : String) (h : ∀ c ∈ s.data, jsWs c = false) : jsTrim s = s := by
  unfold jsTrim
  rw [trimChars_noWs s.data h]

theorem sepChar_false_iff (c : Char) :
    sepChar c = false ↔ (jsWs c = false ∧ ¬ c = ',') := by
  simp only [sepChar, Bool.or_eq_false_iff, beq_eq_false_iff_ne, ne_eq]

theorem splitRun_tok (t : List Char) : ∀ (acc cs : List Char),
    (∀ c ∈ t, sepChar c = false) →
    splitRun (some acc) (t ++ cs) = splitRun (some (t.reverse ++ acc)) cs := by
  induction t with
  | nil =>
    intro acc cs _
    simp
  | cons c t' ih =>
    intro acc cs h
    have hc := (sepChar_false_iff c).mp (h c (List.mem_cons_self c t'))
    have step : splitRun (some acc) ((c :: t') ++ cs)
        = splitRun (some (c :: acc)) (t' ++ cs) := by
      simp [splitRun, hc.1, hc.2]
    rw [step, ih (c :: acc) cs (fun d hd => h d (List.mem_cons_of_mem c hd))]
    congr 1
    simp

theorem splitRun_skip (w : List Char) : ∀ (cs : List Char),
    (∀ c ∈ w, jsWs c = true) →
    splitRun none (w ++ cs) = splitRun none cs := by
  induction w with
  | nil => intro cs _; rfl
  | cons c w' ih =>
    intro cs h
    have hc := h c (List.mem_cons_self c w')
    have step : splitRun none ((c :: w') ++ cs) = splitRun none (w' ++ cs) := by
      simp [splitRun, hc]
    rw [step]
    exact ih cs (fun d hd => h d (List.mem_cons_of_mem c hd))

theorem splitRun_sep (s acc cs : List Char) (hs : plainSep s = true) :
    splitRun (some acc) (s ++ cs) = String.mk acc.reverse :: splitRun none cs := by
  cases s with
  | nil => simp [plainSep] at hs
  | cons c w =>
    simp only [plainSep, Bool.and_eq_true, List.all_eq_true] at hs
    have hw : ∀ d ∈ w, jsWs d = true := fun d hd => hs.2 d hd
    by_cases hc : c = ','
    · subst hc
      have step : splitRun (some acc) ((',' :: w) ++ cs)
          = String.mk acc.reverse :: splitRun none (w ++ cs) := by
        simp [splitRun]
      rw [step, splitRun_skip w cs hw]
    · have hcw : jsWs c = true := by
        have := hs.1
        rwa [if_neg hc] at this
      have step : splitRun (some acc) ((c :: w) ++ cs)
          = String.mk acc.reverse :: splitRun none (w ++ cs) := by
        simp [splitRun, hcw]
      rw [step, splitRun_skip w cs hw]

theorem splitRun_pieces : ∀ (l : List Char) (st : Option (List Char)),
    (∀ acc, st = some acc → ∀ c ∈ acc, sepChar c = false) →
    ∀ a ∈ splitRun st l, ∀ c ∈ a.data, sepChar c = false := by
  intro l
  induction l with
  | nil =>
    intro st hst a ha c hc
    cases st with
    | some acc =>
      simp only [splitRun, List.mem_singleton] at ha
      subst ha
      exact hst acc rfl c (List.mem_reverse.mp hc)
    | none =>
      simp only [splitRun, List.mem_singleton] at ha
      subst ha
      simp only [String.data] at hc
      simp at hc
  | cons d cs ih =>
    intro st hst a ha c hc
    cases st with
    | some acc =>
      by_cases h1 : jsWs d = true
      · simp only [splitRun, h1, if_true] at ha
        rcases List.mem_cons.mp ha with h | h
        · subst h
          exact hst acc rfl c (List.mem_reverse.mp hc)
        · exact ih none (by intro acc h; cases h) a h c hc
      · by_cases h2 : d = ','
        · have h1f : jsWs d = false := by simpa using h1
          simp only [splitRun, h1f, Bool.false_eq_true, if_false, h2, if_true] at ha
          rcases List.mem_cons.mp ha with h | h
          · subst h
            exact hst acc rfl c (List.mem_reverse.mp hc)
          · exact ih none (by intro acc h; cases h) a h c hc
        · have h1f : jsWs d = false := by simpa using h1
          simp only [splitRun, h1f, Bool.false_eq_true, if_false, h2] at ha
          refine ih (some (d :: acc)) ?_ a ha c hc
          intro acc' h'
          cases h'
          intro e he
          rcases List.mem_cons.mp he with h | h
          · subst h
            exact (sepChar_false_iff e).mpr ⟨(by simpa using h1), h2⟩
          · exact hst acc rfl e h
    | none =>
      by_cases h1 : jsWs d = true
      · simp only [splitRun, h1, if_true] at ha
        exact ih none (by intro acc h; cases h) a ha c hc
      · by_cases h2 : d = ','
        · have h1f : jsWs d = false := by simpa using h1
          simp only [splitRun, h1f, Bool.false_eq_true, if_false, h2, if_true] at ha
          rcases List.mem_cons.mp ha with h | h
          · subst h
            simp only [String.data] at hc
            simp at hc
          · exact ih none (by intro acc h; cases h) a h c hc
        · have h1f : jsWs d = false := by simpa using h1
          simp only [splitRun, h1f, Bool.false_eq_true, if_false, h2] at ha
          refine ih (some [d]) ?_ a ha c hc
          intro acc' h'
          cases h'
          intro e he
          rcases List.mem_cons.mp he with h | h
          · subst h
            exact (sepChar_false_iff e).mpr ⟨(by simpa using h1), h2⟩
          · simp at h

theorem plainTok_spec (t : List Char) (h : plainTok t = true) :
    t ≠ [] ∧ ∀ c ∈ t, sepChar c = false := by
  simp only [plainTok, Bool.and_eq_true, List.all_eq_true, Bool.not_eq_true'] at h
  constructor
  · cases t with
    | nil => simp [List.isEmpty] at h
    | cons a l => simp
  · exact h.2

theorem splitRun_join : ∀ (segs : List (List Char × List Char)) (t acc : List Char),
    (∀ c ∈ t, sepChar c = false) →
    (∀ p ∈ segs, plainSep p.1 = true ∧ plainTok p.2 = true) →
    splitRun (some acc) (t ++ joinSegs segs)
      = String.mk (acc.reverse ++ t) :: segs.map (fun p => String.mk p.2) := by
  intro segs
  induction segs with
  | nil =>
    intro t acc ht _
    rw [joinSegs, splitRun_tok t acc [] ht]
    simp [splitRun]
  | cons p rest ih =>
    intro t acc ht hall
    obtain ⟨s, tk⟩ := p
    have hsep := (hall (s, tk) (List.mem_cons_self _ _)).1
    have htok := (hall (s, tk) (List.mem_cons_self _ _)).2
    obtain ⟨htkne, htkch⟩ := plainTok_spec tk htok
    have hassoc : t ++ joinSegs ((s, tk) :: rest) = t ++ (s ++ (tk ++ joinSegs rest)) := by
      rw [joinSegs]
      simp [List.append_assoc]
    rw [hassoc, splitRun_tok t acc (s ++ (tk ++ joinSegs rest)) ht,
      splitRun_sep s (t.reverse ++ acc) (tk ++ joinSegs rest) hsep]
    cases tk with
    | nil => exact absurd rfl htkne
    | cons c tk' =>
      have hc := (sepChar_false_iff c).mp (htkch c (List.mem_cons_self c tk'))
      have step : splitRun none ((c :: tk') ++ joinSegs rest)
          = splitRun (some [c]) (tk' ++ joinSegs rest) := by
        simp [splitRun, hc.1, hc.2]
      rw [step, ih tk' [c] (fun d hd => htkch d (List.mem_cons_of_mem c hd))
        (fun p hp => hall p (List.mem_cons_of_mem _ hp))]
      simp

theorem join_rev_head : ∀ (segs : List (List Char × List Char)) (t : List Char),
    plainTok t = true →
    (∀ p ∈ segs, plainSep p.1 = true ∧ plainTok p.2 = true) →
    ∀ c, ((t ++ joinSegs segs).reverse).head? = some c → jsWs c = false := by
  intro segs
  induction segs with
  | nil =>
    intro t ht _ c hc
    rw [joinSegs, List.append_nil] at hc
    have hmem := List.mem_reverse.mp (head?_mem _ _ hc)
    exact ((sepChar_false_iff c).mp ((plainTok_spec t ht).2 c hmem)).1
  | cons p rest ih =>
    intro t ht hall c hc
    obtain ⟨s, tk⟩ := p
    have htk := (hall (s, tk) (List.mem_cons_self _ _)).2
    have htkne := (plainTok_spec tk htk).1
    have hre : (t ++ joinSegs ((s, tk) :: rest)).reverse
        = (tk ++ joinSegs rest).reverse ++ (s.reverse ++ t.reverse) := by
      rw [joinSegs]
      simp [List.reverse_append, List.append_assoc]
    rw [hre] at hc
    have hne : (tk ++ joinSegs rest).reverse ≠ [] := by
      intro hnil
      rw [List.reverse_eq_nil_iff] at hnil
      exact htkne (List.append_eq_nil.mp hnil).1
    rw [head?_append_left _ _ hne] at hc
    exact ih tk htk (fun p hp => hall p (List.mem_cons_of_mem _ hp)) c hc

theorem getRaw_eq_findSome (A : Arguments) : ∀ (names : List String),
    A.getRaw names = names.findSome? (fun n => lookupRaw A.raw n) := by
  intro names
  induction names with
  | nil => rfl
  | cons n rest ih =>
    cases h : lookupRaw A.raw n with
    | some v => simp [Arguments.getRaw, List.findSome?, h]
    | none => simp [Arguments.getRaw, List.findSome?, h, ih]

theorem getRaw_first (A : Arguments) :
    ∀ (pre : List String) (n : String) (post : List String) (v : RawValue),
    (∀ m ∈ pre, lookupRaw A.raw m = none) →
    lookupRaw A.raw n = some v →
    A.getRaw (pre ++ n :: post) = some v := by
  intro pre
  induction pre with
  | nil =>
    intro n post v _ hn
    simp [Arguments.getRaw, hn]
  | cons m pre' ih =>
    intro n post v hpre hn
    have hm := hpre m (List.mem_cons_self m pre')
    simp only [List.cons_append, Arguments.getRaw, hm]
    exact ih n post v (fun x hx => hpre x (List.mem_cons_of_mem m hx)) hn

theorem getRaw_none (A : Arguments) : ∀ (names : List String),
    (∀ m ∈ names, lookupRaw A.raw m = none) → A.getRaw names = none := by
  intro names
  induction names with
  | nil => intro _; rfl
  | cons n rest ih =>
    intro h
    have hn := h n (List.mem_cons_self n rest)
    simp only [Arguments.getRaw, hn]
    exact ih (fun x hx => h x (List.mem_cons_of_mem n hx))

theorem nameMatches_of_not_mem (names : List String) (name : String)
    (h : name ∉ names) : nameMatches names name = false := by
  unfold nameMatches
  have hnone : names.find? (fun n => n == name) = none := by
    rw [List.find?_eq_none]
    intro x hx
    simp only [beq_iff_eq]
    intro he
    exact h (he ▸ hx)
  rw [hnone]

/-- C1: For every declared expectation, `get(name)` resolves the raw value by
scanning all of that expectation's aliases in alias order and taking the
first one present in the raw flag map; if no alias is present it falls back
to the stored default, which is the absent marker when no default was
declared; the convertor is applied to whichever value was selected (raw,
default, or absent) and its result is returned.  `specResolve` states exactly
this precedence — explicit raw value (by alias order) > declared default >
absent-passed-to-convertor — and the convertor always runs. -/
theorem get_resolves_first_alias_then_default (A : Arguments) (name : String)
    (ex : Expectation)
    (h : A.expectations.find? (fun e => nameMatches e.names name) = some ex) :
    A.get name = Except.ok (ex.convertor (specResolve A.raw ex)) := by
  unfold Arguments.get
  rw [h]
  show Except.ok (ex.convertor (match A.getRaw ex.names with
      | some v => Value.raw v
      | none => ex.default)) = _
  unfold specResolve
  rw [getRaw_eq_findSome]

theorem get_resolves_first_alias_then_default_witness :
    (Arguments.make
        [⟨NameDecl.str "port,p", some (Value.raw (RawValue.num 3000)), none, none⟩]
        [("p", RawValue.str "8080")]).get "port"
      = Except.ok (Value.raw (RawValue.str "8080")) :=
  get_resolves_first_alias_then_default
    (Arguments.make
      [⟨NameDecl.str "port,p", some (Value.raw (RawValue.num 3000)), none, none⟩]
      [("p", RawValue.str "8080")])
    "port"
    (createExpectation
      ⟨NameDecl.str "port,p", some (Value.raw (RawValue.num 3000)), none, none⟩)
    rfl

/-- C2: for every name that is not an alias of any declared expectation,
`get(name)` raises the plain declaration fault, and `isArgumentException`
returns `false` for it (it is not classified as a help-requested or
value-error signal). -/
theorem get_undeclared_is_generic_fault (A : Arguments) (name : String)
    (h : ∀ ex ∈ A.expectations, name ∉ ex.names) :
    A.get name
        = Except.error (ErrorValue.generic ("Argument \"" ++ name ++ "\" is not found."))
      ∧ isArgumentException
          (ErrorValue.generic ("Argument \"" ++ name ++ "\" is not found.")) = false := by
  constructor
  · unfold Arguments.get
    have hf : A.expectations.find? (fun ex => nameMatches ex.names name) = none := by
      rw [List.find?_eq_none]
      intro ex hex
      simp only [Bool.not_eq_true]
      exact nameMatches_of_not_mem ex.names name (h ex hex)
    rw [hf]
  · rfl

theorem get_undeclared_is_generic_fault_witness :
    (Arguments.make [⟨NameDecl.str "port,p", none, none, none⟩] []).get "nonexistent"
        = Except.error (ErrorValue.generic "Argument \"nonexistent\" is not found.")
      ∧ isArgumentException
          (ErrorValue.generic "Argument \"nonexistent\" is not found.") = false :=
  get_undeclared_is_generic_fault _ "nonexistent" (by decide)

/-- C6: `shouldHelp()` returns true if and only if the raw flag map contains
a truthy value under the name `help`; it is false when the `help` flag is
absent or bound to `false`, `0` or the empty string, all of which are falsy. -/
theorem shouldHelp_iff_truthy_help (A : Arguments) :
    A.shouldHelp = true ↔ ∃ v, lookupRaw A.raw "help" = some v ∧ v.truthy = true := by
  cases h : lookupRaw A.raw "help" with
  | some v =>
    simp only [Arguments.shouldHelp, Arguments.getRaw, h]
    constructor
    · intro ht
      exact ⟨v, rfl, ht⟩
    · rintro ⟨w, hw, hwt⟩
      cases hw
      exact hwt
  | none =>
    simp only [Arguments.shouldHelp, Arguments.getRaw, h]
    simp

theorem noVD_tail (c : Char) (l : List Char) (h : noVD (c :: l) = true) :
    noVD l = true := by
  cases l with
  | nil => rfl
  | cons d l' =>
    simp only [noVD, Bool.and_eq_true] at h
    exact h.2

theorem noVD_head (c d : Char) (l : List Char) (h : noVD (c :: d :: l) = true) :
    (c == 'v' && d.isDigit) = false := by
  simp only [noVD, Bool.and_eq_true, Bool.not_eq_true'] at h
  exact h.1

theorem repV_plain_char (c : Char) (l : List Char) (hc : ¬ c = 'v') :
    repV false (c :: l) = c :: repV false l := by
  cases l with
  | nil => rfl
  | cons d r =>
    have h : ¬ (c = 'v' ∧ d.isDigit = true) := fun hp => hc hp.1
    simp [repV, h]

theorem repV_false_vd (d : Char) (l : List Char) (hd : d.isDigit = true) :
    repV false ('v' :: d :: l) = d :: repV true l := by
  simp [repV, hd]

theorem repV_false_vnd (d : Char) (l : List Char) (hd : d.isDigit = false) :
    repV false ('v' :: d :: l) = 'v' :: repV false (d :: l) := by
  simp [repV, hd]

theorem repV_true_digit (c : Char) (l : List Char) (hc : c.isDigit = true) :
    repV true (c :: l) = c :: repV true l := by
  cases l with
  | nil => rfl
  | cons d r =>
    have h1 : ¬ (c = '.' ∧ d.isDigit = true) := by
      intro hp
      rw [hp.1] at hc
      exact absurd hc (by decide)
    have h2 : ¬ (c = 'v' ∧ d.isDigit = true) := by
      intro hp
      rw [hp.1] at hc
      exact absurd hc (by decide)
    simp [repV, h1, h2, hc]

theorem repV_true_dotd (d : Char) (l : List Char) (hd : d.isDigit = true) :
    repV true ('.' :: d :: l) = '.' :: d :: repV true l := by
  simp [repV, hd]

theorem repV_gap : ∀ (g rest : List Char), noVD g = true →
    (∀ d, rest.head? = some d → d.isDigit = false) →
    repV false (g ++ rest) = g ++ repV false rest := by
  intro g
  induction g with
  | nil => intro rest _ _; rfl
  | cons c g' ih =>
    intro rest hg hrest
    have hg' : noVD g' = true := noVD_tail c g' hg
    by_cases hv : c = 'v'
    · subst hv
      cases g' with
      | nil =>
        cases rest with
        | nil => rfl
        | cons d rest' =>
          have hd : d.isDigit = false := hrest d rfl
          show repV false ('v' :: d :: rest') = 'v' :: repV false (d :: rest')
          exact repV_false_vnd d rest' hd
      | cons e g'' =>
        have he : e.isDigit = false := by
          have h := noVD_head 'v' e g'' hg
          simpa using h
        show repV false ('v' :: e :: (g'' ++ rest)) = ('v' :: e :: g'') ++ repV false rest
        rw [repV_false_vnd e (g'' ++ rest) he, ← List.cons_append,
          ih rest hg' hrest]
        rfl
    · show repV false (c :: (g' ++ rest)) = (c :: g') ++ repV false rest
      rw [repV_plain_char c (g' ++ rest) hv, ih rest hg' hrest]
      rfl

theorem repV_true_exit (l : List Char)
    (h1 : ∀ d, l.head? = some d → d.isDigit = false)
    (h2 : ∀ e r, l = '.' :: e :: r → e.isDigit = false) :
    repV true l = repV false l := by
  match l with
  | [] => rfl
  | [c] => rfl
  | c :: d :: r =>
    have hc : c.isDigit = false := h1 c rfl
    by_cases hdot : c = '.'
    · subst hdot
      have hd : d.isDigit = false := h2 d r rfl
      have hv : ¬ (('.' : Char) = 'v') := by decide
      simp [repV, hd, hv]
    · by_cases hv : c = 'v'
      · subst hv
        by_cases hd : d.isDigit = true
        · have hvd : ¬ (('v' : Char) = '.') := by decide
          simp [repV, hd, hvd]
        · have hdf : d.isDigit = false := by simpa using hd
          simp [repV, hdf]
      · simp [repV, hc, hdot, hv]

theorem repV_digits : ∀ (ds tail : List Char),
    (∀ c ∈ ds, c.isDigit = true) →
    repV true (ds ++ tail) = ds ++ repV true tail := by
  intro ds
  induction ds with
  | nil => intro tail _; rfl
  | cons c ds' ih =>
    intro tail h
    have hc := h c (List.mem_cons_self c ds')
    show repV true (c :: (ds' ++ tail)) = c :: (ds' ++ repV true tail)
    rw [repV_true_digit c (ds' ++ tail) hc,
      ih tail (fun d hd => h d (List.mem_cons_of_mem c hd))]

theorem repV_groups : ∀ (groups : List (List Char)) (rest : List Char),
    (∀ g ∈ groups, digitsTok g = true) →
    (∀ d, rest.head? = some d → d.isDigit = false) →
    (∀ e r, rest = '.' :: e :: r → e.isDigit = false) →
    repV true (joinDots groups ++ rest) = joinDots groups ++ repV false rest := by
  intro groups
  induction groups with
  | nil =>
    intro rest _ h1 h2
    exact repV_true_exit rest h1 h2
  | cons g gs ih =>
    intro rest hg h1 h2
    have hgt := hg g (List.mem_cons_self g gs)
    simp only [digitsTok, Bool.and_eq_true, List.all_eq_true, Bool.not_eq_true'] at hgt
    obtain ⟨hne, hall⟩ := hgt
    cases g with
    | nil => simp [List.isEmpty] at hne
    | cons e g' =>
      have hed : e.isDigit = true := hall e (List.mem_cons_self e g')
      have hall' : ∀ c ∈ g', c.isDigit = true :=
        fun c hc => hall c (List.mem_cons_of_mem e hc)
      have key : repV true ('.' :: e :: (g' ++ (joinDots gs ++ rest)))
          = '.' :: e :: (g' ++ (joinDots gs ++ repV false rest)) := by
        rw [repV_true_dotd e (g' ++ (joinDots gs ++ rest)) hed,
          repV_digits g' (joinDots gs ++ rest) hall',
          ih rest (fun q hq => hg q (List.mem_cons_of_mem _ hq)) h1 h2]
      simp only [joinDots, List.cons_append, List.append_assoc]
      exact key

theorem repV_match (first : List Char) (groups : List (List Char)) (rest : List Char)
    (hf : digitsTok first = true)
    (hg : ∀ g ∈ groups, digitsTok g = true)
    (h1 : ∀ d, rest.head? = some d → d.isDigit = false)
    (h2 : ∀ e r, rest = '.' :: e :: r → e.isDigit = false) :
    repV false ('v' :: (first ++ (joinDots groups ++ rest)))
      = first ++ (joinDots groups ++ repV false rest) := by
  simp only [digitsTok, Bool.and_eq_true, List.all_eq_true, Bool.not_eq_true'] at hf
  obtain ⟨hne, hall⟩ := hf
  cases first with
  | nil => simp [List.isEmpty] at hne
  | cons d ds =>
    have hd : d.isDigit = true := hall d (List.mem_cons_self d ds)
    have hds : ∀ c ∈ ds, c.isDigit = true :=
      fun c hc => hall c (List.mem_cons_of_mem d hc)
    show repV false ('v' :: d :: (ds ++ (joinDots groups ++ rest)))
        = d :: (ds ++ (joinDots groups ++ repV false rest))
    rw [repV_false_vd d (ds ++ (joinDots groups ++ rest)) hd,
      repV_digits ds (joinDots groups ++ rest) hds,
      repV_groups groups rest hg h1 h2]

theorem joinRuns_head (pieces : List (List Char × List (List Char) × List Char)) :
    ∀ d, (joinRuns pieces).head? = some d → d = 'v' := by
  intro d h
  cases pieces with
  | nil => simp [joinRuns] at h
  | cons p rest =>
    obtain ⟨f, gs, g⟩ := p
    simp only [joinRuns, List.cons_append, List.head?_cons, Option.some.injEq] at h
    exact h.symm

theorem gap_tail_head_ok (g X : List Char) (hg : afterRunGap g = true)
    (hX : ∀ d, X.head? = some d → d = 'v') :
    (∀ d, (g ++ X).head? = some d → d.isDigit = false)
  ∧ (∀ e r, g ++ X = '.' :: e :: r → e.isDigit = false) := by
  constructor
  · intro d hd
    cases g with
    | nil =>
      rw [List.nil_append] at hd
      rw [hX d hd]
      decide
    | cons c g' =>
      have hdc : d = c := by
        simp only [List.cons_append, List.head?_cons, Option.some.injEq] at hd
        exact hd.symm
      subst hdc
      simp only [afterRunGap, Bool.and_eq_true, Bool.not_eq_true'] at hg
      exact hg.1
  · intro e r he
    cases g with
    | nil =>
      rw [List.nil_append] at he
      have hv : ('.' : Char) = 'v' := hX '.' (by rw [he]; rfl)
      exact absurd hv (by decide)
    | cons c g' =>
      rw [List.cons_append] at he
      have hc : c = '.' := ((List.cons.injEq _ _ _ _).mp he).1
      have htail : g' ++ X = e :: r := ((List.cons.injEq _ _ _ _).mp he).2
      subst hc
      cases g' with
      | nil =>
        rw [List.nil_append] at htail
        have hv : e = 'v' := hX e (by rw [htail]; rfl)
        rw [hv]
        decide
      | cons e' g'' =>
        have hee : e = e' := by
          rw [List.cons_append] at htail
          exact ((List.cons.injEq _ _ _ _).mp htail).1.symm
        subst hee
        simp only [afterRunGap, Bool.and_eq_true] at hg
        simpa using hg.2

theorem repV_joinRuns : ∀ (pieces : List (List Char × List (List Char) × List Char)),
    (∀ p ∈ pieces, digitsTok p.1 = true) →
    (∀ p ∈ pieces, ∀ g ∈ p.2.1, digitsTok g = true) →
    (∀ p ∈ pieces, noVD p.2.2 = true ∧ afterRunGap p.2.2 = true) →
    repV false (joinRuns pieces) = joinRunsOut pieces := by
  intro pieces
  induction pieces with
  | nil => intro _ _ _; rfl
  | cons p rest ih =>
    intro h1 h2 h3
    obtain ⟨f, gs, g⟩ := p
    have hp1 := h1 (f, gs, g) (List.mem_cons_self _ _)
    have hp2 := h2 (f, gs, g) (List.mem_cons_self _ _)
    have hp3 := h3 (f, gs, g) (List.mem_cons_self _ _)
    have hbound := gap_tail_head_ok g (joinRuns rest) hp3.2 (joinRuns_head rest)
    show repV false ('v' :: (f ++ (joinDots gs ++ (g ++ joinRuns rest))))
        = f ++ (joinDots gs ++ (g ++ joinRunsOut rest))
    rw [repV_match f gs (g ++ joinRuns rest) hp1 hp2 hbound.1 hbound.2,
      repV_gap g (joinRuns rest) hp3.1
        (fun d hd => by rw [joinRuns_head rest d hd]; decide),
      ih (fun q hq => h1 q (List.mem_cons_of_mem _ hq))
        (fun q hq => h2 q (List.mem_cons_of_mem _ hq))
        (fun q hq => h3 q (List.mem_cons_of_mem _ hq))]

/-- C7: `setVersion` strips the leading `v` from every embedded dotted-numeric
run of its input and leaves all text outside the matched runs untouched: for
every input decomposed as a leading gap followed by any number of
`v`-prefixed dotted-numeric runs each followed by its trailing gap — the gaps
containing no `v`-digit pair (so no match starts inside them) and each
post-run gap starting with neither a digit nor a dot-digit pair (so it does
not extend the run), which makes the listed runs exactly the matches of
`/v([0-9]+(\.[0-9]+)*)/g` — the stored version is the same text with exactly
each run's `v` removed and every gap byte-identical.  In particular
`setVersion("v1.2.3")` stores `"1.2.3"`, and `setVersion("release-2.0")`,
whose dotted-numeric run has no `v` prefix to strip, stores the whole string
(surrounding text included) unchanged. -/
theorem setVersion_strips_every_run (A : Arguments) (g0 : List Char)
    (pieces : List (List Char × List (List Char) × List Char))
    (hg0 : noVD g0 = true)
    (h1 : ∀ p ∈ pieces, digitsTok p.1 = true)
    (h2 : ∀ p ∈ pieces, ∀ g ∈ p.2.1, digitsTok g = true)
    (h3 : ∀ p ∈ pieces, noVD p.2.2 = true ∧ afterRunGap p.2.2 = true) :
    (A.setVersion (String.mk (g0 ++ joinRuns pieces))).version
        = some (String.mk (g0 ++ joinRunsOut pieces))
  ∧ ((Arguments.make [] []).setVersion "v1.2.3").version = some "1.2.3"
  ∧ ((Arguments.make [] []).setVersion "release-2.0").version
        = some "release-2.0"
  ∧ ((Arguments.make [] []).setVersion "app v2.10 final").version
        = some "app 2.10 final" := by
  refine ⟨?_, by decide, by decide, by decide⟩
  show some (String.mk (repV false (String.mk (g0 ++ joinRuns pieces)).data))
      = some (String.mk (g0 ++ joinRunsOut pieces))
  rw [show (String.mk (g0 ++ joinRuns pieces)).data = g0 ++ joinRuns pieces from rfl,
    repV_gap g0 (joinRuns pieces) hg0
      (fun d hd => by rw [joinRuns_head pieces d hd]; decide),
    repV_joinRuns pieces h1 h2 h3]

theorem setVersion_strips_every_run_witness :
    ((Arguments.make [] []).setVersion "app v2.10 plus v3 end").version
      = some "app 2.10 plus 3 end" :=
  (setVersion_strips_every_run (Arguments.make [] []) "app ".data
    [(['2'], [['1', '0']], " plus ".data), (['3'], [], " end".data)]
    (by decide) (by decide) (by decide) (by decide)).1

/-- C9: `getHelpMessage` is a deterministic, pure function of the registry
and the session metadata: any two instances that agree on the registry,
description and version — whatever their raw flag maps — render byte-identical
help strings, so two calls with no intervening mutation return the same
string. -/
theorem getHelpMessage_pure (A B : Arguments)
    (h1 : A.expectations = B.expectations)
    (h2 : A.description = B.description)
    (h3 : A.version = B.version) :
    A.getHelpMessage = B.getHelpMessage := by
  unfold Arguments.getHelpMessage metaLines sessionDescLines versionLines
  rw [h1, h2, h3]

theorem getHelpMessage_pure_witness :
    (Arguments.make [⟨NameDecl.str "port", none, none, none⟩]
        [("x", RawValue.num 1)]).getHelpMessage
      = (Arguments.make [⟨NameDecl.str "port", none, none, none⟩] []).getHelpMessage :=
  getHelpMessage_pure _ _ rfl rfl rfl

/-- C10: if the raw flag map holds a defined but falsy value (`false`, `0` or
the empty string) under the alias at which the in-order scan resolves, `get`
returns the convertor applied to that raw falsy value, not to the declared
default: a present falsy raw value takes precedence over the default. -/
theorem falsy_raw_overrides_default (A : Arguments) (name : String)
    (ex : Expectation) (pre : List String) (n : String) (post : List String)
    (v : RawValue)
    (hfind : A.expectations.find? (fun e => nameMatches e.names name) = some ex)
    (hnames : ex.names = pre ++ n :: post)
    (hpre : ∀ m ∈ pre, lookupRaw A.raw m = none)
    (hn : lookupRaw A.raw n = some v)
    (_hfalsy : v.truthy = false) :
    A.get name = Except.ok (ex.convertor (Value.raw v)) := by
  unfold Arguments.get
  rw [hfind]
  show Except.ok (ex.convertor (match A.getRaw ex.names with
      | some w => Value.raw w
      | none => ex.default)) = _
  rw [hnames, getRaw_first A pre n post v hpre hn]

theorem falsy_raw_overrides_default_witness :
    (Arguments.make
        [⟨NameDecl.str "port,p", some (Value.raw (RawValue.num 3000)), none, none⟩]
        [("p", RawValue.str "")]).get "port"
      = Except.ok (Value.raw (RawValue.str "")) :=
  falsy_raw_overrides_default
    (Arguments.make
      [⟨NameDecl.str "port,p", some (Value.raw (RawValue.num 3000)), none, none⟩]
      [("p", RawValue.str "")])
    "port"
    (createExpectation
      ⟨NameDecl.str "port,p", some (Value.raw (RawValue.num 3000)), none, none⟩)
    ["port"] "p" [] (RawValue.str "")
    rfl (by decide) (by decide) (by decide) (by decide)

theorem map_jsTrim_plain : ∀ (ts : List (List Char)),
    (∀ tk ∈ ts, ∀ c ∈ tk, sepChar c = false) →
    ts.map (fun tk => jsTrim (String.mk tk)) = ts.map String.mk := by
  intro ts
  induction ts with
  | nil => intro _; rfl
  | cons tk ts' ih =>
    intro h
    simp only [List.map_cons, List.cons.injEq]
    constructor
    · apply jsTrim_noWs
      intro c hc
      exact ((sepChar_false_iff c).mp (h tk (List.mem_cons_self _ _) c hc)).1
    · exact ih (fun x hx c hc => h x (List.mem_cons_of_mem _ hx) c hc)

/-- C3 (counterexample): the normalizer does not in general agree with the
trimmed-token array form.  In `"port , p"` the whitespace before the comma is
consumed as its own `\s+` match, and the following comma starts a second
match, so an empty alias appears between them: the string form yields
`["port", "", "p"]` while the array of its trimmed tokens yields
`["port", "p"]`. -/
theorem split_ws_before_comma_cex :
    normalizeName (NameDecl.str "port , p") = ["port", "", "p"]
  ∧ normalizeName (NameDecl.arr ["port", "p"]) = ["port", "p"]
  ∧ ¬ normalizeName (NameDecl.str "port , p")
      = normalizeName (NameDecl.arr ["port", "p"]) := by
  refine ⟨by decide, by decide, by decide⟩

/-- C3 (amended): for every expectation declaration whose name is a string of
tokens separated by pure-whitespace runs or by a comma not preceded by
whitespace (optionally followed by whitespace), the normalizer produces
exactly the token list, the same alias list as the declaration given with
name as the explicit array of the same trimmed tokens; in particular
`"port, p"`, `"port p"` and `"port,p"` all yield `["port", "p"]`, and array
elements are trimmed independently without re-splitting.  (When whitespace
precedes a comma separator, an empty alias is inserted instead.) -/
theorem string_name_matches_array_name (t : List Char)
    (segs : List (List Char × List Char))
    (ht : plainTok t = true)
    (hs : ∀ p ∈ segs, plainSep p.1 = true ∧ plainTok p.2 = true) :
    normalizeName (NameDecl.str (String.mk (t ++ joinSegs segs)))
        = (t :: segs.map (fun p => p.2)).map String.mk
  ∧ normalizeName (NameDecl.arr ((t :: segs.map (fun p => p.2)).map String.mk))
        = (t :: segs.map (fun p => p.2)).map String.mk
  ∧ normalizeName (NameDecl.str "port, p") = ["port", "p"]
  ∧ normalizeName (NameDecl.str "port p") = ["port", "p"]
  ∧ normalizeName (NameDecl.str "port,p") = ["port", "p"] := by
  have hLhead : ∀ c, (t ++ joinSegs segs).head? = some c → jsWs c = false := by
    intro c hc
    obtain ⟨htne, htch⟩ := plainTok_spec t ht
    rw [head?_append_left t (joinSegs segs) htne] at hc
    exact ((sepChar_false_iff c).mp (htch c (head?_mem t c hc))).1
  have htrim : trimChars (t ++ joinSegs segs) = t ++ joinSegs segs := by
    unfold trimChars
    rw [dropWs_eq_self _ hLhead, dropWs_eq_self _ (join_rev_head segs t ht hs)]
    exact List.reverse_reverse _
  have htoks : ∀ tk ∈ t :: segs.map (fun p => p.2), ∀ c ∈ tk, sepChar c = false := by
    intro tk htk
    rcases List.mem_cons.mp htk with h | h
    · rw [h]
      exact (plainTok_spec t ht).2
    · rcases List.mem_map.mp h with ⟨p, hp, hpe⟩
      subst hpe
      exact (plainTok_spec p.2 (hs p hp).2).2
  refine ⟨?_, ?_, by decide, by decide, by decide⟩
  · show splitRun (some []) (trimChars (String.mk (t ++ joinSegs segs)).data) = _
    rw [show (String.mk (t ++ joinSegs segs)).data = t ++ joinSegs segs from rfl, htrim,
      splitRun_join segs t [] (plainTok_spec t ht).2 hs]
    simp
  · show ((t :: segs.map (fun p => p.2)).map String.mk).map jsTrim = _
    rw [List.map_map]
    have h := map_jsTrim_plain (t :: segs.map (fun p => p.2)) htoks
    simpa [Function.comp] using h

theorem string_name_matches_array_name_witness :
    normalizeName (NameDecl.str "port, p") = ["port", "p"]
  ∧ normalizeName (NameDecl.arr ["port", "p"]) = ["port", "p"] :=
  ⟨(string_name_matches_array_name ['p', 'o', 'r', 't'] [([',', ' '], ['p'])]
      (by decide) (by decide)).1,
   (string_name_matches_array_name ['p', 'o', 'r', 't'] [([',', ' '], ['p'])]
      (by decide) (by decide)).2.1⟩

/-- C4 (counterexample): the declaration name `"a,"` is non-empty, yet the
trailing comma closes an empty piece, so the canonical names sequence is
`["a", ""]`, which contains an empty (hence not non-empty) alias. -/
theorem empty_alias_from_trailing_comma_cex :
    ¬ "a," = ""
  ∧ normalizeName (NameDecl.str "a,") = ["a", ""]
  ∧ "" ∈ normalizeName (NameDecl.str "a,") := by
  refine ⟨by decide, by decide, by decide⟩

/-- C4 (amended): for every expectation declaration, every alias string in
the resulting canonical names sequence is trimmed (invariant under trimming);
non-emptiness does not hold in general — a name with a leading, trailing or
doubled separator (such as `"a,"`), or an array element that is all
whitespace, produces an empty alias. -/
theorem normalized_aliases_are_trimmed (d : NameDecl) (a : String)
    (h : a ∈ normalizeName d) : jsTrim a = a := by
  cases d with
  | str s =>
    have hch : ∀ c ∈ a.data, sepChar c = false := by
      refine splitRun_pieces (trimChars s.data) (some []) ?_ a h
      intro acc hacc
      cases hacc
      intro c hc
      simp at hc
    apply jsTrim_noWs
    intro c hc
    exact ((sepChar_false_iff c).mp (hch c hc)).1
  | arr l =>
    rcases List.mem_map.mp h with ⟨m, hm, hme⟩
    subst hme
    exact jsTrim_idem m

theorem normalized_aliases_are_trimmed_witness :
    jsTrim "port" = "port" :=
  normalized_aliases_are_trimmed (NameDecl.str "port, p") "port" (by decide)

/-- C5 (counterexample): a declared default of explicit `null` — which is a
declared value other than `undefined` — is also mapped to the absent state by
`ex.default ?? null`, and with no raw value present `get` then returns the
absent-value convertor call, so `undefined` is not the only value mapped to
absent. -/
theorem null_default_is_absent_cex :
    some Value.null ≠ (none : Option Value)
  ∧ normalizeDefault (some Value.null) = Value.null
  ∧ (Arguments.make [⟨NameDecl.str "a", some Value.null, none, none⟩] []).get "a"
      = Except.ok Value.null := by
  refine ⟨by decide, by decide, rfl⟩

/-- C5 (amended): default normalization maps `undefined` and explicit `null`
to the absent state; every other declared default value — including 0, false
and the empty string — is kept as-is and is not the absent marker, and when
no raw value is present under any alias, `get` returns the convertor applied
to that stored default (for default 0 this is convertor(0)), never making a
spurious absent-value convertor call. -/
theorem default_normalization_behavior (v : RawValue) (A : Arguments)
    (name : String) (ex : Expectation)
    (hfind : A.expectations.find? (fun e => nameMatches e.names name) = some ex)
    (habsent : ∀ m ∈ ex.names, lookupRaw A.raw m = none) :
    normalizeDefault (some (Value.raw v)) = Value.raw v
  ∧ Value.raw v ≠ Value.null
  ∧ normalizeDefault none = Value.null
  ∧ normalizeDefault (some Value.null) = Value.null
  ∧ A.get name = Except.ok (ex.convertor ex.default) := by
  refine ⟨rfl, by intro h; exact Value.noConfusion h, rfl, rfl, ?_⟩
  unfold Arguments.get
  rw [hfind]
  show Except.ok (ex.convertor (match A.getRaw ex.names with
      | some w => Value.raw w
      | none => ex.default)) = _
  rw [getRaw_none A ex.names habsent]

theorem default_normalization_behavior_witness :
    normalizeDefault (some (Value.raw (RawValue.num 0))) = Value.raw (RawValue.num 0)
  ∧ Value.raw (RawValue.num 0) ≠ Value.null
  ∧ normalizeDefault none = Value.null
  ∧ normalizeDefault (some Value.null) = Value.null
  ∧ (Arguments.make
        [⟨NameDecl.str "port", some (Value.raw (RawValue.num 0)), none, none⟩]
        []).get "port"
      = Except.ok (Value.raw (RawValue.num 0)) :=
  default_normalization_behavior (RawValue.num 0)
    (Arguments.make
      [⟨NameDecl.str "port", some (Value.raw (RawValue.num 0)), none, none⟩] [])
    "port"
    (createExpectation
      ⟨NameDecl.str "port", some (Value.raw (RawValue.num 0)), none, none⟩)
    rfl (by decide)

/-- C8: `getHelpMessage` omits the default-value line entirely for any
expectation declared without a default (whatever its description), and omits
description lines entirely for any expectation declared without a description
(whatever its default); and each absent piece of session metadata contributes
nothing to the output: with no session description the metadata block is just
its version part, with no version it is just its description part, and with
both absent the whole message is exactly the docs part (no stray blank lines
from the absent metadata block). -/
theorem help_omits_absent_sections (d1 d2 : ExpectationType) (A1 A2 A3 : Arguments)
    (hd : d1.default = none) (hdesc : d2.description = none)
    (hA1 : A1.description = none) (hA2 : A2.version = none)
    (hA3d : A3.description = none) (hA3v : A3.version = none) :
    expLines (createExpectation d1)
        = [expHeader (createExpectation d1)] ++ descLinesOf (createExpectation d1)
  ∧ expLines (createExpectation d2)
        = [expHeader (createExpectation d2)] ++ defaultLineOf (createExpectation d2)
  ∧ metaLines A1 = versionLines A1
  ∧ metaLines A2 = sessionDescLines A2
  ∧ A3.getHelpMessage = docsOf A3.expectations := by
  refine ⟨?_, ?_, ?_, ?_, ?_⟩
  · have hnull : (createExpectation d1).default = Value.null := by
      show normalizeDefault d1.default = Value.null
      rw [hd]
      rfl
    simp [expLines, defaultLineOf, hnull]
  · have hnone : (createExpectation d2).description = none := by
      show normalizeDescription d2.description = none
      rw [hdesc]
      rfl
    simp [expLines, descLinesOf, hnone]
  · simp [metaLines, sessionDescLines, hA1]
  · simp [metaLines, versionLines, hA2]
  · unfold Arguments.getHelpMessage metaLines sessionDescLines versionLines
    rw [hA3d, hA3v]
    show "\n".intercalate
        (List.filter (fun s => s != "") ["\r\n".intercalate [], docsOf A3.expectations])
      = docsOf A3.expectations
    by_cases hdocs : docsOf A3.expectations = ""
    · rw [hdocs]
      exact rfl
    · have hne : (docsOf A3.expectations != "") = true := by
        simpa using hdocs
      have hfil : List.filter (fun s => s != "")
            ["\r\n".intercalate [], docsOf A3.expectations]
          = [docsOf A3.expectations] := by
        simp only [List.filter_cons, List.filter_nil]
        rw [show (("\r\n".intercalate []) != "") = false from rfl, hne]
        simp
      rw [hfil]
      exact rfl

theorem help_omits_absent_sections_witness :
    expLines (createExpectation ⟨NameDecl.str "a", none, some "The a flag.", none⟩)
        = [expHeader (createExpectation ⟨NameDecl.str "a", none, some "The a flag.", none⟩)]
          ++ descLinesOf (createExpectation ⟨NameDecl.str "a", none, some "The a flag.", none⟩)
  ∧ expLines (createExpectation
        ⟨NameDecl.str "b", some (Value.raw (RawValue.num 1)), none, none⟩)
        = [expHeader (createExpectation
            ⟨NameDecl.str "b", some (Value.raw (RawValue.num 1)), none, none⟩)]
          ++ defaultLineOf (createExpectation
            ⟨NameDecl.str "b", some (Value.raw (RawValue.num 1)), none, none⟩)
  ∧ metaLines ((Arguments.make [] []).setVersion "v1.2.3")
        = versionLines ((Arguments.make [] []).setVersion "v1.2.3")
  ∧ metaLines ((Arguments.make [] []).setDescription "My tool")
        = sessionDescLines ((Arguments.make [] []).setDescription "My tool")
  ∧ (Arguments.make [⟨NameDecl.str "x", none, none, none⟩] []).getHelpMessage
      = docsOf (Arguments.make [⟨NameDecl.str "x", none, none, none⟩] []).expectations :=
  help_omits_absent_sections
    ⟨NameDecl.str "a", none, some "The a flag.", none⟩
    ⟨NameDecl.str "b", some (Value.raw (RawValue.num 1)), none, none⟩
    ((Arguments.make [] []).setVersion "v1.2.3")
    ((Arguments.make [] []).setDescription "My tool")
    (Arguments.make [⟨NameDecl.str "x", none, none, none⟩] [])
    rfl rfl rfl rfl rfl rfl
